import Mathlib

/-!
# Verification of the squeaknode store layer

A shallow embedding of the persistence layer of squeaknode
(`squeaknode/db/squeak_db.py` together with the table definitions in
`squeaknode/db/models.py`), with theorems checking the specification's
claims about it.

Conventions of the embedding:

* Byte strings (hashes, keys, nonces) are `List Nat`, one natural per byte.
* Text (author addresses, hosts, squeak content, search strings) is
  `List Nat`, one natural per character code; the database's `lower()`
  folds only the ASCII range, which is what `asciiLower` below does.
* Each SQL table is a `List` of row structures inside `Store`; the
  `timestamp_now_ms` clock is passed explicitly as a `nowMs : Nat`
  argument to every operation that reads it.
* The code compares `timestamp_now_ms / 1000` (an exact rational, since
  the division is Python's true division) against whole-second invoice
  fields; the embedding multiplies both sides by 1000 and compares
  `nowMs` with `1000 * (seconds)`, which is the same comparison.
* `sqlalchemy.exc.IntegrityError` arises exactly on a uniqueness
  violation of the tables involved here (primary-key `hash` for
  squeaks, unique `(host, port)` for peers), so the embedding tests
  these conditions directly.
-/

namespace Squeaknode

/-- Byte strings: one natural number per byte. -/
abbrev Bytes := List Nat

/-- Character strings: one natural number per character code. -/
abbrev Text := List Nat

/-- `MAX_INT` sentinel from `squeak_db.py`. -/
def MAX_INT : Nat := 999999999999

/-- `MAX_HASH = b'\xff' * 32` from `squeak_db.py`. -/
def MAX_HASH : Bytes := List.replicate 32 255

/-- Strict memcmp-style lexicographic order on byte strings, the order the
database uses when comparing BLOB columns such as squeak hashes. -/
def bytesLt : Bytes → Bytes → Bool
  | [], [] => false
  | [], _ :: _ => true
  | _ :: _, [] => false
  | a :: as, b :: bs => decide (a < b) || (a == b && bytesLt as bs)

/-- The `(n_block_height, n_time, hash)` keyset-pagination sort key. -/
structure SortKey where
  height : Nat
  time : Nat
  hash : Bytes
deriving DecidableEq, Repr

/-- Strict lexicographic order on sort keys, as produced by the SQL
row-value comparison `tuple_(n_block_height, n_time, hash) < tuple_(...)`. -/
def keyLt (a b : SortKey) : Bool :=
  decide (a.height < b.height) ||
    (a.height == b.height &&
      (decide (a.time < b.time) || (a.time == b.time && bytesLt a.hash b.hash)))

/-- A row of the `squeak` table (`models.py`). -/
structure SqueakRow where
  hash : Bytes
  createdTimeMs : Nat
  squeakSer : Bytes
  hashReplySqk : Option Bytes
  hashBlock : Bytes
  nBlockHeight : Nat
  nTime : Nat
  authorAddress : Text
  secretKey : Option Bytes
  blockTime : Nat
  likedTimeMs : Option Nat
  content : Option Text
deriving DecidableEq, Repr

/-- The sort key of a squeak row. -/
def sortKey (s : SqueakRow) : SortKey :=
  ⟨s.nBlockHeight, s.nTime, s.hash⟩

/-- A row of the `profile` table (`models.py`). -/
structure ProfileRow where
  profileId : Nat
  createdTimeMs : Nat
  profileName : Text
  privateKey : Option Bytes
  address : Text
  following : Bool
  useCustomPrice : Bool
  customPriceMsat : Nat
  profileImage : Option Bytes
deriving DecidableEq, Repr

/-- A row of the `peer` table (`models.py`); unique `(host, port)`. -/
structure PeerRow where
  peerId : Nat
  createdTimeMs : Nat
  peerName : Text
  host : Text
  port : Nat
  useTor : Bool
  autoconnect : Bool
deriving DecidableEq, Repr

/-- A row of the `received_offer` table (`models.py`). -/
structure ReceivedOfferRow where
  receivedOfferId : Nat
  createdTimeMs : Nat
  squeakHash : Bytes
  paymentHash : Bytes
  nonce : Bytes
  paymentPoint : Bytes
  invoiceTimestamp : Nat
  invoiceExpiry : Nat
  priceMsat : Nat
  paymentRequest : Text
  destination : Text
  lightningHost : Text
  lightningPort : Nat
  peerHost : Text
  peerPort : Nat
  peerUseTor : Bool
  paid : Bool
deriving DecidableEq, Repr

/-- A row of the `sent_offer` table (`models.py`). -/
structure SentOfferRow where
  sentOfferId : Nat
  createdTimeMs : Nat
  squeakHash : Bytes
  paymentHash : Bytes
  secretKey : Bytes
  nonce : Bytes
  priceMsat : Nat
  paymentRequest : Text
  invoiceTimestamp : Nat
  invoiceExpiry : Nat
  peerHost : Text
  peerPort : Nat
  peerUseTor : Bool
  paid : Bool
deriving DecidableEq, Repr

/-- The persisted state owned by `SqueakDb`: one list per table used by
the claims under scrutiny. -/
structure Store where
  squeaks : List SqueakRow
  profiles : List ProfileRow
  peers : List PeerRow
  receivedOffers : List ReceivedOfferRow
  sentOffers : List SentOfferRow
deriving DecidableEq, Repr

/-- An in-memory `CSqueak` object (from the `squeak` package) as consumed
by `insert_squeak`.  The `hash` field stands for `get_hash(squeak)`, the
content-derived identifier deterministically computed from the serialized
squeak; `hashReplySqk` is `some` exactly when `squeak.is_reply`. -/
structure CSqueak where
  hash : Bytes
  serialized : Bytes
  hashReplySqk : Option Bytes
  hashBlock : Bytes
  nBlockHeight : Nat
  nTime : Nat
  address : Text
deriving DecidableEq, Repr

/-- `get_hash(squeak)` (`squeaknode/core/squeaks.py`): the deterministic
content-derived identifier of a squeak, carried by the `hash` field of
the embedded `CSqueak`. -/
def get_hash (squeak : CSqueak) : Bytes := squeak.hash

/-- `SqueakDb.insert_squeak`: insert a new squeak row with
`secret_key=None` and no `content` value (the column defaults to NULL).
Returns the squeak's hash, or `None` when a row with the same primary-key
hash already exists (the `IntegrityError` branch). -/
def insert_squeak (st : Store) (nowMs : Nat) (squeak : CSqueak)
    (blockHeaderNTime : Nat) : Option Bytes × Store :=
  if st.squeaks.any (fun s => s.hash == get_hash squeak) then
    (none, st)
  else
    let row : SqueakRow :=
      { hash := get_hash squeak
        createdTimeMs := nowMs
        squeakSer := squeak.serialized
        hashReplySqk := squeak.hashReplySqk
        hashBlock := squeak.hashBlock
        nBlockHeight := squeak.nBlockHeight
        nTime := squeak.nTime
        authorAddress := squeak.address
        secretKey := none
        blockTime := blockHeaderNTime
        likedTimeMs := none
        content := none }
    (some (get_hash squeak), { st with squeaks := st.squeaks ++ [row] })

/-- `SqueakDb.set_squeak_decryption_key`: one UPDATE setting `secret_key`
and `content` together on the row with the given hash. -/
def set_squeak_decryption_key (st : Store) (squeakHash : Bytes)
    (secretKey : Bytes) (content : Text) : Store :=
  { st with
    squeaks := st.squeaks.map (fun s =>
      if s.hash == squeakHash then
        { s with secretKey := some secretKey, content := some content }
      else s) }

/-- `SqueakDb.set_squeak_liked`: set `liked_time_ms` to the current time. -/
def set_squeak_liked (st : Store) (nowMs : Nat) (squeakHash : Bytes) : Store :=
  { st with
    squeaks := st.squeaks.map (fun s =>
      if s.hash == squeakHash then { s with likedTimeMs := some nowMs } else s) }

/-- `SqueakDb.set_squeak_unliked`: clear `liked_time_ms`. -/
def set_squeak_unliked (st : Store) (squeakHash : Bytes) : Store :=
  { st with
    squeaks := st.squeaks.map (fun s =>
      if s.hash == squeakHash then { s with likedTimeMs := none } else s) }

/-- `SqueakDb.delete_squeak`: delete the row with the given hash. -/
def delete_squeak (st : Store) (squeakHash : Bytes) : Store :=
  { st with squeaks := st.squeaks.filter (fun s => !(s.hash == squeakHash)) }

/-- Database error surfaced to callers on a uniqueness violation; the
spec's error taxonomy calls this `AlreadyExists`. -/
inductive DbError where
  | alreadyExists
deriving DecidableEq, Repr

/-- The `PeerAddress` value object (`squeaknode/core/peer_address.py`). -/
structure PeerAddress where
  host : Text
  port : Nat
  useTor : Bool
deriving DecidableEq, Repr

/-- The `SqueakPeer` value object passed to `insert_peer`. -/
structure SqueakPeer where
  peerName : Text
  address : PeerAddress
  autoconnect : Bool
deriving DecidableEq, Repr

/-- `SqueakDb.insert_peer`: insert a saved peer.  The `peer` table has
`UniqueConstraint('host', 'port')`, so inserting a peer whose `(host,
port)` pair is already present raises `IntegrityError` — `insert_peer`
has no handler for it, so the error propagates to the caller and nothing
is inserted.  The fresh `peer_id` models the autoincrement column. -/
def insert_peer (st : Store) (nowMs : Nat) (peer : SqueakPeer) :
    Except DbError Nat × Store :=
  if st.peers.any (fun q =>
      q.host == peer.address.host && q.port == peer.address.port) then
    (Except.error DbError.alreadyExists, st)
  else
    let id := st.peers.length + 1
    let row : PeerRow :=
      { peerId := id
        createdTimeMs := nowMs
        peerName := peer.peerName
        host := peer.address.host
        port := peer.address.port
        useTor := peer.address.useTor
        autoconnect := peer.autoconnect }
    (Except.ok id, { st with peers := st.peers ++ [row] })

/-- The descending `(n_block_height DESC, n_time DESC, hash DESC)` sort
relation used by the paginated queries: `a` may come before `b` when `a`'s
sort key is not smaller than `b`'s. -/
def pageDesc (a b : SqueakRow) : Prop :=
  keyLt (sortKey a) (sortKey b) = false

instance : DecidableRel pageDesc := fun _ _ =>
  inferInstanceAs (Decidable (_ = false))

/-- The `LEFT OUTER JOIN` of a squeak's author address against the
`profile` table: `profile.address` is unique, so the join partner is the
(at most one) profile row with that address. -/
def profileFor (st : Store) (addr : Text) : Option ProfileRow :=
  st.profiles.find? (fun p => p.address == addr)

/-- `SqueakDb.profile_has_no_private_key` applied to the outer-join
partner: `profile.private_key IS NULL`, which is also satisfied when no
profile row matches (all joined columns are NULL then). -/
def profile_has_no_private_key (op : Option ProfileRow) : Bool :=
  match op with
  | some p => p.privateKey.isNone
  | none => true

/-- `SqueakDb.profile_is_following` applied to the outer-join partner:
`profile.following == True`, which NULL (no join partner) fails. -/
def profile_is_following (op : Option ProfileRow) : Bool :=
  match op with
  | some p => p.following
  | none => false

/-- `SqueakDb.squeak_is_older_than_retention`:
`timestamp_now_ms > created_time_ms + interval_s * 1000`. -/
def squeak_is_older_than_retention (nowMs intervalS : Nat) (s : SqueakRow) : Bool :=
  decide (s.createdTimeMs + intervalS * 1000 < nowMs)

/-- `SqueakDb.squeak_is_not_liked`: `liked_time_ms IS NULL`. -/
def squeak_is_not_liked (s : SqueakRow) : Bool :=
  s.likedTimeMs.isNone

/-- `SqueakDb.get_old_squeaks_to_delete`: hashes of the squeaks that are
older than retention, whose author profile has no private key, and that
are not liked. -/
def get_old_squeaks_to_delete (st : Store) (nowMs intervalS : Nat) : List Bytes :=
  (st.squeaks.filter (fun s =>
      squeak_is_older_than_retention nowMs intervalS s &&
      profile_has_no_private_key (profileFor st s.authorAddress) &&
      squeak_is_not_liked s)).map SqueakRow.hash

/-- Modelled from the spec: the retention-eligibility predicate as the
spec words it — "(created_time_ms + retention_s·1000 ≤ now) ∧ (not liked)
∧ (author profile is not locally owned)".  Used only to compare the
spec's boundary with the code's. -/
def retention_eligible_spec (st : Store) (nowMs intervalS : Nat)
    (s : SqueakRow) : Bool :=
  decide (s.createdTimeMs + intervalS * 1000 ≤ nowMs) &&
  squeak_is_not_liked s &&
  profile_has_no_private_key (profileFor st s.authorAddress)

/-- `SqueakDb.received_offer_is_not_paid`: `paid == False`. -/
def received_offer_is_not_paid (o : ReceivedOfferRow) : Bool :=
  o.paid == false

/-- `SqueakDb.received_offer_is_not_expired`:
`timestamp_now_ms / 1000 < invoice_timestamp + invoice_expiry`,
scaled by 1000 to stay in integers. -/
def received_offer_is_not_expired (nowMs : Nat) (o : ReceivedOfferRow) : Bool :=
  decide (nowMs < 1000 * (o.invoiceTimestamp + o.invoiceExpiry))

/-- `SqueakDb.received_offer_should_be_deleted`:
`timestamp_now_ms / 1000 >= invoice_timestamp + invoice_expiry`. -/
def received_offer_should_be_deleted (nowMs : Nat) (o : ReceivedOfferRow) : Bool :=
  decide (1000 * (o.invoiceTimestamp + o.invoiceExpiry) ≤ nowMs)

/-- `SqueakDb.get_received_offers`: the unpaid, unexpired received offers
for a squeak hash. -/
def get_received_offers (st : Store) (nowMs : Nat) (squeakHash : Bytes) :
    List ReceivedOfferRow :=
  st.receivedOffers.filter (fun o =>
    o.squeakHash == squeakHash && received_offer_is_not_paid o &&
    received_offer_is_not_expired nowMs o)

/-- `SqueakDb.delete_expired_received_offers`: delete every received offer
satisfying `received_offer_should_be_deleted`; returns the new store and
the rowcount of deleted offers. -/
def delete_expired_received_offers (st : Store) (nowMs : Nat) : Store × Nat :=
  ({ st with receivedOffers := st.receivedOffers.filter (fun o =>
      !received_offer_should_be_deleted nowMs o) },
   (st.receivedOffers.filter (fun o =>
      received_offer_should_be_deleted nowMs o)).length)

/-- `SqueakDb.sent_offer_should_be_deleted`:
`timestamp_now_ms / 1000 >= invoice_timestamp + invoice_expiry + interval_s`. -/
def sent_offer_should_be_deleted (nowMs intervalS : Nat) (o : SentOfferRow) : Bool :=
  decide (1000 * (o.invoiceTimestamp + o.invoiceExpiry + intervalS) ≤ nowMs)

/-- `SqueakDb.delete_expired_sent_offers`: delete every sent offer that
has been expired for more than `interval_s` seconds; returns the new
store and the rowcount of deleted offers. -/
def delete_expired_sent_offers (st : Store) (nowMs intervalS : Nat) : Store × Nat :=
  ({ st with sentOffers := st.sentOffers.filter (fun o =>
      !sent_offer_should_be_deleted nowMs intervalS o) },
   (st.sentOffers.filter (fun o =>
      sent_offer_should_be_deleted nowMs intervalS o)).length)

/-- `SqueakDb.lookup_squeaks`: hashes of the squeaks passing the
conditionally-applied filters.  Python truthiness makes each filter a
no-op on its sentinel: an empty address list, `min_block = 0`,
`max_block = 0`, and an empty `reply_to_hash` apply no condition, and
`include_locked = True` drops the secret-key condition. -/
def lookup_squeaks (st : Store) (addresses : List Text) (minBlock maxBlock : Nat)
    (replyToHash : Bytes) (includeLocked : Bool) : List Bytes :=
  ((st.squeaks.filter (fun s =>
      (addresses.isEmpty || addresses.contains s.authorAddress) &&
      (minBlock == 0 || decide (minBlock ≤ s.nBlockHeight)) &&
      (maxBlock == 0 || decide (s.nBlockHeight ≤ maxBlock)) &&
      (replyToHash.isEmpty || s.hashReplySqk == some replyToHash) &&
      (includeLocked || s.secretKey.isSome))).insertionSort pageDesc).map
    SqueakRow.hash

/-- `SqueakDb.get_timeline_squeak_entries`: squeaks of following profiles
whose `(n_block_height, n_time, hash)` key is strictly below the last
entry's, in descending key order, limited to `limit`.  Passing
`last = none` models `last_entry=None`, for which the code substitutes
the `(MAX_INT, MAX_INT, MAX_HASH)` defaults. -/
def get_timeline_squeak_entries (st : Store) (limit : Nat)
    (last : Option SortKey) : List SqueakRow :=
  let lastKey := match last with
    | some k => k
    | none => ⟨MAX_INT, MAX_INT, MAX_HASH⟩
  ((st.squeaks.filter (fun s =>
      profile_is_following (profileFor st s.authorAddress) &&
      keyLt (sortKey s) lastKey)).insertionSort pageDesc).take limit

/-- ASCII-only lower-casing of one character code, as the database's
`lower()` applies it when evaluating `ILIKE`. -/
def asciiLower (c : Nat) : Nat :=
  if 65 ≤ c ∧ c ≤ 90 then c + 32 else c

/-- All suffixes of a list, longest first, ending with `[]`. -/
def listSuffixes : List Nat → List (List Nat)
  | [] => [[]]
  | c :: s2 => (c :: s2) :: listSuffixes s2

/-- SQL LIKE pattern matching over character codes: `%` (code 37)
matches any run of characters — equivalently, the rest of the pattern
matches some suffix of the string — `_` (code 95) matches exactly one
character, and any other pattern character matches itself. -/
def likeMatch : List Nat → List Nat → Bool
  | [], s => s.isEmpty
  | p :: ps, s =>
    if p = 37 then (listSuffixes s).any (fun s2 => likeMatch ps s2)
    else
      match s with
      | [] => false
      | c :: s2 => (if p = 95 then true else p == c) && likeMatch ps s2

/-- The `content ILIKE '%' + search_text + '%'` condition of
`get_squeak_entries_for_text_search`: both sides lower-cased, the search
text interpolated between two `%` wildcards; a NULL content never
matches. -/
def content_matches_search (text : Text) (s : SqueakRow) : Bool :=
  match s.content with
  | some c => likeMatch (37 :: (text.map asciiLower ++ [37])) (c.map asciiLower)
  | none => false

/-- `SqueakDb.get_squeak_entries_for_text_search`: squeaks whose content
matches the ILIKE pattern and whose sort key is strictly below the last
entry's, in descending key order, limited to `limit`. -/
def get_squeak_entries_for_text_search (st : Store) (text : Text)
    (limit : Nat) (last : Option SortKey) : List SqueakRow :=
  let lastKey := match last with
    | some k => k
    | none => ⟨MAX_INT, MAX_INT, MAX_HASH⟩
  ((st.squeaks.filter (fun s =>
      content_matches_search text s &&
      keyLt (sortKey s) lastKey)).insertionSort pageDesc).take limit

/-- One step of the recursive CTE in
`SqueakDb.get_thread_ancestor_squeak_entries`: for every hash in the
frontier, the recursive member selects the `hash_reply_sqk` of each
squeak row with that hash (NULL included — a NULL frontier entry joins
nothing).  `union_all` keeps every produced row, so the CTE iterates on
exactly this frontier. -/
def cteStep (squeaks : List SqueakRow) (frontier : List (Option Bytes)) :
    List (Option Bytes) :=
  frontier.flatMap (fun oh =>
    match oh with
    | none => []
    | some h =>
      (squeaks.filter (fun s => s.hash == h)).map (fun s => s.hashReplySqk))

/-- The frontier of the recursive ancestor CTE after `n` iterations,
seeded by the anchor member `SELECT hash WHERE hash = h0`.  The CTE
terminates exactly when the frontier becomes empty; the produced
ancestor rows are the union of all frontiers with their depths. -/
def cteFrontier (squeaks : List SqueakRow) (h0 : Bytes) : Nat → List (Option Bytes)
  | 0 => (squeaks.filter (fun s => s.hash == h0)).map (fun s => some s.hash)
  | n + 1 => cteStep squeaks (cteFrontier squeaks h0 n)

/-- The invariant claimed for the `squeak` table: `secret_key` is present
exactly when the plaintext `content` is present. -/
def secretKeyContentInv (st : Store) : Prop :=
  ∀ s ∈ st.squeaks, s.secretKey.isSome = s.content.isSome

instance (st : Store) : Decidable (secretKeyContentInv st) :=
  List.decidableBAll _ st.squeaks

/-! ## Concrete fixtures used by witnesses and counterexamples -/

/-- The empty store. -/
def emptyStore : Store := ⟨[], [], [], [], []⟩

/-- A sample in-memory squeak. -/
def sampleSqueak : CSqueak :=
  { hash := [1], serialized := [0], hashReplySqk := none, hashBlock := [2]
    nBlockHeight := 5, nTime := 7, address := [97] }

/-- A sample saved-peer row at host [104] port 8555. -/
def samplePeerRow : PeerRow :=
  { peerId := 1, createdTimeMs := 0, peerName := [112], host := [104]
    port := 8555, useTor := false, autoconnect := false }

/-- A store already holding `samplePeerRow`. -/
def peerStore : Store := ⟨[], [], [samplePeerRow], [], []⟩

/-- A saved-peer value whose `(host, port)` collides with `samplePeerRow`. -/
def samplePeerDup : SqueakPeer :=
  { peerName := [113], address := ⟨[104], 8555, true⟩, autoconnect := true }

/-- A squeak row created at time 0, not liked, with no author profile. -/
def oldSqueakRow : SqueakRow :=
  { hash := [3], createdTimeMs := 0, squeakSer := [], hashReplySqk := none
    hashBlock := [2], nBlockHeight := 1, nTime := 1, authorAddress := [97]
    secretKey := none, blockTime := 0, likedTimeMs := none, content := none }

/-- A store holding only `oldSqueakRow`. -/
def retentionStore : Store := ⟨[oldSqueakRow], [], [], [], []⟩

/-- A received offer whose invoice (timestamp 1, expiry 1) expires at
second 2. -/
def expiredOfferRow : ReceivedOfferRow :=
  { receivedOfferId := 1, createdTimeMs := 0, squeakHash := [5]
    paymentHash := [6], nonce := [7], paymentPoint := [8]
    invoiceTimestamp := 1, invoiceExpiry := 1, priceMsat := 1000
    paymentRequest := [108], destination := [100], lightningHost := [104]
    lightningPort := 9735, peerHost := [104], peerPort := 8555
    peerUseTor := false, paid := false }

/-- A store holding only `expiredOfferRow`. -/
def offerStore : Store := ⟨[], [], [], [expiredOfferRow], []⟩

/-- A sent offer whose invoice (timestamp 0, expiry 10) expires at
second 10. -/
def sampleSentOfferRow : SentOfferRow :=
  { sentOfferId := 1, createdTimeMs := 0, squeakHash := [5]
    paymentHash := [6], secretKey := [9], nonce := [7], priceMsat := 1000
    paymentRequest := [108], invoiceTimestamp := 0, invoiceExpiry := 10
    peerHost := [104], peerPort := 8555, peerUseTor := false, paid := false }

/-- A store holding only `sampleSentOfferRow`. -/
def sentOfferStore : Store := ⟨[], [], [], [], [sampleSentOfferRow]⟩

/-- An unlocked squeak row anchored at block height 5. -/
def unlockedSqueakRow : SqueakRow :=
  { hash := [4], createdTimeMs := 0, squeakSer := [], hashReplySqk := none
    hashBlock := [2], nBlockHeight := 5, nTime := 7, authorAddress := [97]
    secretKey := some [9], blockTime := 0, likedTimeMs := none
    content := some [104] }

/-- A store holding only `unlockedSqueakRow`. -/
def lookupStore : Store := ⟨[unlockedSqueakRow], [], [], [], []⟩

/-- A following profile for address [97], holding no private key. -/
def followedProfileRow : ProfileRow :=
  { profileId := 1, createdTimeMs := 0, profileName := [97]
    privateKey := none, address := [97], following := true
    useCustomPrice := false, customPriceMsat := 0, profileImage := none }

/-- A followed squeak at block height 2. -/
def timelineSqueakA : SqueakRow :=
  { hash := [2], createdTimeMs := 0, squeakSer := [], hashReplySqk := none
    hashBlock := [2], nBlockHeight := 2, nTime := 2, authorAddress := [97]
    secretKey := none, blockTime := 0, likedTimeMs := none, content := none }

/-- A followed squeak at block height 1. -/
def timelineSqueakB : SqueakRow :=
  { hash := [1], createdTimeMs := 0, squeakSer := [], hashReplySqk := none
    hashBlock := [2], nBlockHeight := 1, nTime := 1, authorAddress := [97]
    secretKey := none, blockTime := 0, likedTimeMs := none, content := none }

/-- A store with one following profile and two of its squeaks. -/
def timelineStore : Store :=
  ⟨[timelineSqueakB, timelineSqueakA], [followedProfileRow], [], [], []⟩

/-- A squeak row with plaintext content "x" (code 120). -/
def searchSqueakRow : SqueakRow :=
  { hash := [2], createdTimeMs := 0, squeakSer := [], hashReplySqk := none
    hashBlock := [2], nBlockHeight := 2, nTime := 2, authorAddress := [97]
    secretKey := some [9], blockTime := 0, likedTimeMs := none
    content := some [120] }

/-- A squeak row with plaintext content "Hi" (codes 72, 105). -/
def searchSqueakRowHi : SqueakRow :=
  { hash := [1], createdTimeMs := 0, squeakSer := [], hashReplySqk := none
    hashBlock := [2], nBlockHeight := 1, nTime := 1, authorAddress := [97]
    secretKey := some [9], blockTime := 0, likedTimeMs := none
    content := some [72, 105] }

/-- A store holding only `searchSqueakRow`. -/
def searchStore : Store := ⟨[searchSqueakRow], [], [], [], []⟩

/-- A store holding only `searchSqueakRowHi`. -/
def searchStoreHi : Store := ⟨[searchSqueakRowHi], [], [], [], []⟩

/-- A squeak row recorded in the store as replying to itself: a
pathological `hash_reply_sqk` chain in stored data. -/
def selfReplySqueakRow : SqueakRow :=
  { hash := [7], createdTimeMs := 0, squeakSer := [], hashReplySqk := some [7]
    hashBlock := [2], nBlockHeight := 1, nTime := 1, authorAddress := [97]
    secretKey := none, blockTime := 0, likedTimeMs := none, content := none }

/-- A store holding only `selfReplySqueakRow`. -/
def selfReplyStore : Store := ⟨[selfReplySqueakRow], [], [], [], []⟩

/-! ## Order lemmas for the keyset sort key -/

theorem bytesLt_irrefl (a : Bytes) : bytesLt a a = false := by
  induction a with
  | nil => rfl
  | cons x xs ih => simp [bytesLt, ih]

theorem bytesLt_trans {a b c : Bytes} (h1 : bytesLt a b = true)
    (h2 : bytesLt b c = true) : bytesLt a c = true := by
  induction a generalizing b c with
  | nil =>
    cases b with
    | nil => exact absurd h1 (by simp [bytesLt])
    | cons y ys =>
      cases c with
      | nil => exact absurd h2 (by simp [bytesLt])
      | cons z zs => simp [bytesLt]
  | cons x xs ih =>
    cases b with
    | nil => exact absurd h1 (by simp [bytesLt])
    | cons y ys =>
      cases c with
      | nil => exact absurd h2 (by simp [bytesLt])
      | cons z zs =>
        simp only [bytesLt, Bool.or_eq_true, Bool.and_eq_true,
          decide_eq_true_eq, beq_iff_eq] at h1 h2 ⊢
        rcases h1 with h1 | ⟨rfl, h1⟩
        · rcases h2 with h2 | ⟨rfl, _⟩
          · exact Or.inl (Nat.lt_trans h1 h2)
          · exact Or.inl h1
        · rcases h2 with h2 | ⟨rfl, h2⟩
          · exact Or.inl h2
          · exact Or.inr ⟨rfl, ih h1 h2⟩

theorem bytesLt_connex {a b : Bytes} (h1 : bytesLt a b = false)
    (h2 : bytesLt b a = false) : a = b := by
  induction a generalizing b with
  | nil =>
    cases b with
    | nil => rfl
    | cons y ys => exact absurd h1 (by simp [bytesLt])
  | cons x xs ih =>
    cases b with
    | nil => exact absurd h2 (by simp [bytesLt])
    | cons y ys =>
      simp only [bytesLt, Bool.or_eq_false_iff, Bool.and_eq_false_iff,
        decide_eq_false_iff_not, beq_eq_false_iff_ne, ne_eq] at h1 h2
      rcases h1 with ⟨hxy, h1⟩
      rcases h2 with ⟨hyx, h2⟩
      have hxy' : x = y := by omega
      subst hxy'
      rcases h1 with h1 | h1
      · exact absurd rfl h1
      · rcases h2 with h2 | h2
        · exact absurd rfl h2
        · rw [ih h1 h2]

theorem bytesLt_asymm {a b : Bytes} (h : bytesLt a b = true) :
    bytesLt b a = false := by
  by_contra hc
  have hba : bytesLt b a = true := by
    cases hh : bytesLt b a
    · exact absurd hh hc
    · rfl
  have := bytesLt_trans h hba
  rw [bytesLt_irrefl] at this
  exact absurd this (by simp)

theorem keyLt_irrefl (a : SortKey) : keyLt a a = false := by
  simp [keyLt, bytesLt_irrefl]

theorem keyLt_trans {a b c : SortKey} (h1 : keyLt a b = true)
    (h2 : keyLt b c = true) : keyLt a c = true := by
  simp only [keyLt, Bool.or_eq_true, Bool.and_eq_true, decide_eq_true_eq,
    beq_iff_eq] at h1 h2 ⊢
  rcases h1 with h1 | ⟨hh1, h1⟩
  · rcases h2 with h2 | ⟨hh2, _⟩
    · exact Or.inl (Nat.lt_trans h1 h2)
    · exact Or.inl (hh2 ▸ h1)
  · rcases h2 with h2 | ⟨hh2, h2⟩
    · exact Or.inl (hh1 ▸ h2)
    · refine Or.inr ⟨hh1.trans hh2, ?_⟩
      rcases h1 with h1 | ⟨ht1, h1⟩
      · rcases h2 with h2 | ⟨ht2, _⟩
        · exact Or.inl (Nat.lt_trans h1 h2)
        · exact Or.inl (ht2 ▸ h1)
      · rcases h2 with h2 | ⟨ht2, h2⟩
        · exact Or.inl (ht1 ▸ h2)
        · exact Or.inr ⟨ht1.trans ht2, bytesLt_trans h1 h2⟩

theorem keyLt_connex {a b : SortKey} (h1 : keyLt a b = false)
    (h2 : keyLt b a = false) : a = b := by
  simp only [keyLt, Bool.or_eq_false_iff, Bool.and_eq_false_iff,
    decide_eq_false_iff_not, beq_eq_false_iff_ne, ne_eq] at h1 h2
  rcases h1 with ⟨hh1, h1⟩
  rcases h2 with ⟨hh2, h2⟩
  have hh : a.height = b.height := by omega
  rcases h1 with h1 | h1
  · exact absurd hh h1
  · rcases h2 with h2 | h2
    · exact absurd hh.symm h2
    · rcases h1 with ⟨ht1, h1⟩
      rcases h2 with ⟨ht2, h2⟩
      have ht : a.time = b.time := by omega
      rcases h1 with h1 | h1
      · exact absurd ht h1
      · rcases h2 with h2 | h2
        · exact absurd ht.symm h2
        · cases a
          cases b
          simp only [SortKey.mk.injEq]
          exact ⟨hh, ht, bytesLt_connex h1 h2⟩

theorem keyLt_asymm {a b : SortKey} (h : keyLt a b = true) :
    keyLt b a = false := by
  by_contra hc
  have hba : keyLt b a = true := by
    cases hh : keyLt b a
    · exact absurd hh hc
    · rfl
  have := keyLt_trans h hba
  rw [keyLt_irrefl] at this
  exact absurd this (by simp)

/-! ## C1: secret_key present iff content present -/

/-- **C1.** In every squeak row `secret_key` is present iff the plaintext
`content` is present, and every store operation on the squeak table
preserves this: `insert_squeak` creates the row with `secret_key` NULL and
no `content`, and `set_squeak_decryption_key` sets both in one update. -/
theorem secret_key_iff_content_preserved (st : Store)
    (hinv : secretKeyContentInv st) (nowMs : Nat) (squeak : CSqueak) (bt : Nat)
    (h k : Bytes) (c : Text) (lh : Bytes) :
    secretKeyContentInv (insert_squeak st nowMs squeak bt).2 ∧
    (∀ s ∈ (insert_squeak st nowMs squeak bt).2.squeaks,
        s ∈ st.squeaks ∨ (s.secretKey = none ∧ s.content = none)) ∧
    secretKeyContentInv (set_squeak_decryption_key st h k c) ∧
    secretKeyContentInv (set_squeak_liked st nowMs lh) ∧
    secretKeyContentInv (set_squeak_unliked st lh) ∧
    secretKeyContentInv (delete_squeak st lh) := by
  refine ⟨?_, ?_, ?_, ?_, ?_, ?_⟩
  · intro s hs
    simp only [insert_squeak] at hs
    split at hs
    · exact hinv s hs
    · simp only [List.mem_append, List.mem_singleton] at hs
      rcases hs with hs | rfl
      · exact hinv s hs
      · rfl
  · intro s hs
    simp only [insert_squeak] at hs
    split at hs
    · exact Or.inl hs
    · simp only [List.mem_append, List.mem_singleton] at hs
      rcases hs with hs | rfl
      · exact Or.inl hs
      · exact Or.inr ⟨rfl, rfl⟩
  · intro s hs
    simp only [set_squeak_decryption_key, List.mem_map] at hs
    obtain ⟨s0, hs0, rfl⟩ := hs
    by_cases hh : (s0.hash == h) = true
    · simp [hh]
    · simpa [hh] using hinv s0 hs0
  · intro s hs
    simp only [set_squeak_liked, List.mem_map] at hs
    obtain ⟨s0, hs0, rfl⟩ := hs
    by_cases hh : (s0.hash == lh) = true
    · simpa [hh] using hinv s0 hs0
    · simpa [hh] using hinv s0 hs0
  · intro s hs
    simp only [set_squeak_unliked, List.mem_map] at hs
    obtain ⟨s0, hs0, rfl⟩ := hs
    by_cases hh : (s0.hash == lh) = true
    · simpa [hh] using hinv s0 hs0
    · simpa [hh] using hinv s0 hs0
  · intro s hs
    exact hinv s (List.mem_of_mem_filter hs)

/-- Witness for C1 at a concrete store and concrete arguments. -/
theorem secret_key_iff_content_preserved_witness :
    secretKeyContentInv emptyStore ∧
    (secretKeyContentInv (insert_squeak emptyStore 10 sampleSqueak 3).2 ∧
     (∀ s ∈ (insert_squeak emptyStore 10 sampleSqueak 3).2.squeaks,
        s ∈ emptyStore.squeaks ∨ (s.secretKey = none ∧ s.content = none)) ∧
     secretKeyContentInv (set_squeak_decryption_key emptyStore [1] [9] [104]) ∧
     secretKeyContentInv (set_squeak_liked emptyStore 10 [1]) ∧
     secretKeyContentInv (set_squeak_unliked emptyStore [1]) ∧
     secretKeyContentInv (delete_squeak emptyStore [1])) :=
  ⟨by decide,
   secret_key_iff_content_preserved emptyStore (by decide) 10 sampleSqueak 3
     [1] [9] [104] [1]⟩

/-! ## C2: insert_squeak is an idempotent no-op on duplicates -/

/-- **C2.** Inserting a fresh squeak returns its hash; inserting the same
squeak again returns `None` and leaves the store exactly in the state
reached after the first insert. -/
theorem insert_squeak_idempotent (st : Store) (squeak : CSqueak)
    (now1 now2 bt1 bt2 : Nat)
    (hfresh : ∀ s ∈ st.squeaks, s.hash ≠ get_hash squeak) :
    (insert_squeak st now1 squeak bt1).1 = some (get_hash squeak) ∧
    insert_squeak (insert_squeak st now1 squeak bt1).2 now2 squeak bt2 =
      (none, (insert_squeak st now1 squeak bt1).2) := by
  have hany : (st.squeaks.any (fun s => s.hash == get_hash squeak)) = false := by
    rw [List.any_eq_false]
    intro s hs
    simpa using hfresh s hs
  constructor
  · simp [insert_squeak, hany]
  · simp [insert_squeak, hany]

/-- Witness for C2: a double insert into the empty store. -/
theorem insert_squeak_idempotent_witness :
    (∀ s ∈ emptyStore.squeaks, s.hash ≠ get_hash sampleSqueak) ∧
    ((insert_squeak emptyStore 10 sampleSqueak 3).1 = some (get_hash sampleSqueak) ∧
     insert_squeak (insert_squeak emptyStore 10 sampleSqueak 3).2 20 sampleSqueak 4 =
       (none, (insert_squeak emptyStore 10 sampleSqueak 3).2)) :=
  ⟨by decide, insert_squeak_idempotent emptyStore sampleSqueak 10 20 3 4 (by decide)⟩

/-! ## C9: duplicate (host, port) peer insert -/

/-- **C9.** Inserting a saved peer whose `(host, port)` equals that of a
peer already in the store surfaces the uniqueness violation to the caller
(`AlreadyExists`); nothing is inserted and the peers table is unchanged. -/
theorem insert_peer_duplicate_already_exists (st : Store) (nowMs : Nat)
    (peer : SqueakPeer)
    (hdup : ∃ q ∈ st.peers,
      q.host = peer.address.host ∧ q.port = peer.address.port) :
    insert_peer st nowMs peer = (Except.error DbError.alreadyExists, st) := by
  obtain ⟨q, hq, hhost, hport⟩ := hdup
  have hany : (st.peers.any (fun q =>
      q.host == peer.address.host && q.port == peer.address.port)) = true := by
    rw [List.any_eq_true]
    exact ⟨q, hq, by simp [hhost, hport]⟩
  simp [insert_peer, hany]

/-- Witness for C9 at a concrete store holding one saved peer. -/
theorem insert_peer_duplicate_already_exists_witness :
    (∃ q ∈ peerStore.peers,
      q.host = samplePeerDup.address.host ∧ q.port = samplePeerDup.address.port) ∧
    insert_peer peerStore 50 samplePeerDup =
      (Except.error DbError.alreadyExists, peerStore) :=
  ⟨by decide, insert_peer_duplicate_already_exists peerStore 50 samplePeerDup
    (by decide)⟩

/-! ## LIKE-matching lemmas -/

theorem nil_mem_listSuffixes (s : List Nat) : [] ∈ listSuffixes s := by
  induction s with
  | nil => simp [listSuffixes]
  | cons c s2 ih => simp [listSuffixes, ih]

theorem mem_listSuffixes (s s2 : List Nat) :
    s2 ∈ listSuffixes s ↔ ∃ pre, s = pre ++ s2 := by
  induction s with
  | nil =>
    simp only [listSuffixes, List.mem_singleton]
    constructor
    · rintro rfl
      exact ⟨[], rfl⟩
    · rintro ⟨pre, h⟩
      exact (List.append_eq_nil.mp h.symm).2
  | cons c s3 ih =>
    simp only [listSuffixes, List.mem_cons, ih]
    constructor
    · rintro (rfl | ⟨pre, rfl⟩)
      · exact ⟨[], rfl⟩
      · exact ⟨c :: pre, rfl⟩
    · rintro ⟨pre, hpre⟩
      cases pre with
      | nil => exact Or.inl hpre.symm
      | cons a pre' =>
        simp only [List.cons_append] at hpre
        injection hpre with h1 h2
        exact Or.inr ⟨pre', h2⟩

theorem likeMatch_percent_cons (ps s : List Nat) :
    likeMatch (37 :: ps) s = true ↔
      ∃ s2, (∃ pre, s = pre ++ s2) ∧ likeMatch ps s2 = true := by
  have hunfold : likeMatch (37 :: ps) s =
      (listSuffixes s).any (fun s2 => likeMatch ps s2) := rfl
  rw [hunfold, List.any_eq_true]
  constructor
  · rintro ⟨s2, hmem, h⟩
    exact ⟨s2, (mem_listSuffixes s s2).mp hmem, h⟩
  · rintro ⟨s2, hpre, h⟩
    exact ⟨s2, (mem_listSuffixes s s2).mpr hpre, h⟩

theorem likeMatch_percent_nil_pattern (s : List Nat) :
    likeMatch [37] s = true := by
  rw [likeMatch_percent_cons]
  exact ⟨[], ⟨s, by simp⟩, rfl⟩

theorem likeMatch_literal_append :
    ∀ (t : List Nat), (∀ c ∈ t, c ≠ 37 ∧ c ≠ 95) → ∀ (rest s : List Nat),
      (likeMatch (t ++ rest) s = true ↔
        ∃ s2, s = t ++ s2 ∧ likeMatch rest s2 = true) := by
  intro t
  induction t with
  | nil =>
    intro _ rest s
    simp
  | cons a t' ih =>
    intro hw rest s
    obtain ⟨ha37, ha95⟩ := hw a (List.mem_cons_self a t')
    have hw' : ∀ c ∈ t', c ≠ 37 ∧ c ≠ 95 :=
      fun c hc => hw c (List.mem_cons_of_mem a hc)
    cases s with
    | nil =>
      have hunfold : likeMatch ((a :: t') ++ rest) [] =
          (if a = 37 then (listSuffixes []).any
              (fun s2 => likeMatch (t' ++ rest) s2) else false) := rfl
      rw [hunfold, if_neg ha37]
      constructor
      · intro h
        exact absurd h (by simp)
      · rintro ⟨s2, h, _⟩
        exact absurd h (by simp)
    | cons c s3 =>
      have hunfold : likeMatch ((a :: t') ++ rest) (c :: s3) =
          (if a = 37 then (listSuffixes (c :: s3)).any
              (fun s2 => likeMatch (t' ++ rest) s2)
           else (if a = 95 then true else a == c) &&
              likeMatch (t' ++ rest) s3) := rfl
      rw [hunfold, if_neg ha37, if_neg ha95]
      constructor
      · intro h
        rw [Bool.and_eq_true, beq_iff_eq] at h
        obtain ⟨rfl, h2⟩ := h
        obtain ⟨s2, rfl, hrest⟩ := (ih hw' rest s3).mp h2
        exact ⟨s2, rfl, hrest⟩
      · rintro ⟨s2, heq, hrest⟩
        simp only [List.cons_append] at heq
        injection heq with h1 h2
        subst h1
        have hm := (ih hw' rest s3).mpr ⟨s2, h2, hrest⟩
        simp [hm]

/-- A `%text%` ILIKE pattern with wildcard-free `text` matches a string
exactly when `text` occurs contiguously inside it. -/
theorem likeMatch_ci_pattern_iff (t : List Nat)
    (hw : ∀ c ∈ t, c ≠ 37 ∧ c ≠ 95) (s : List Nat) :
    likeMatch (37 :: (t ++ [37])) s = true ↔
      ∃ pre post, s = pre ++ (t ++ post) := by
  rw [likeMatch_percent_cons]
  constructor
  · rintro ⟨s2, ⟨pre, rfl⟩, h⟩
    obtain ⟨s3, rfl, _⟩ := (likeMatch_literal_append t hw [37] s2).mp h
    exact ⟨pre, s3, rfl⟩
  · rintro ⟨pre, post, rfl⟩
    refine ⟨t ++ post, ⟨pre, rfl⟩, ?_⟩
    exact (likeMatch_literal_append t hw [37] (t ++ post)).mpr
      ⟨post, rfl, likeMatch_percent_nil_pattern post⟩

theorem asciiLower_no_wildcard {c : Nat} (h37 : c ≠ 37) (h95 : c ≠ 95) :
    asciiLower c ≠ 37 ∧ asciiLower c ≠ 95 := by
  unfold asciiLower
  split <;> omega

theorem map_asciiLower_no_wildcard {t : Text}
    (hw : ∀ c ∈ t, c ≠ 37 ∧ c ≠ 95) :
    ∀ c ∈ t.map asciiLower, c ≠ 37 ∧ c ≠ 95 := by
  intro c hc
  rw [List.mem_map] at hc
  obtain ⟨c0, hc0, rfl⟩ := hc
  exact asciiLower_no_wildcard (hw c0 hc0).1 (hw c0 hc0).2

/-! ## C7: case-insensitive substring text search -/

/-- **C7 (amended).** For search text containing no SQL LIKE wildcard
characters (`%`, code 37, and `_`, code 95), a stored squeak with
plaintext content is returned by `get_squeak_entries_for_text_search`
(within the pagination window, i.e. with sort key below the last entry's
and the window not truncated by `limit`) iff the lower-cased search text
occurs contiguously in the lower-cased content. -/
theorem text_search_ci_substring (st : Store) (text : Text)
    (hw : ∀ c ∈ text, c ≠ 37 ∧ c ≠ 95) (limit : Nat) (lastKey : SortKey)
    (s : SqueakRow) (c : Text) (hc : s.content = some c) :
    (s ∈ get_squeak_entries_for_text_search st text limit (some lastKey) →
      ∃ pre post, c.map asciiLower = pre ++ (text.map asciiLower ++ post)) ∧
    (s ∈ st.squeaks →
      (∃ pre post, c.map asciiLower = pre ++ (text.map asciiLower ++ post)) →
      keyLt (sortKey s) lastKey = true →
      (st.squeaks.filter (fun s2 => content_matches_search text s2 &&
          keyLt (sortKey s2) lastKey)).length ≤ limit →
      s ∈ get_squeak_entries_for_text_search st text limit (some lastKey)) := by
  have hwm := map_asciiLower_no_wildcard hw
  constructor
  · intro hmem
    simp only [get_squeak_entries_for_text_search] at hmem
    have h1 := List.mem_of_mem_take hmem
    rw [List.mem_insertionSort, List.mem_filter] at h1
    have h2 := h1.2
    rw [Bool.and_eq_true] at h2
    have hmatch := h2.1
    rw [content_matches_search, hc] at hmatch
    exact (likeMatch_ci_pattern_iff _ hwm _).mp hmatch
  · intro hsq hsub hkey hlen
    have hmatch : content_matches_search text s = true := by
      rw [content_matches_search, hc]
      exact (likeMatch_ci_pattern_iff _ hwm _).mpr hsub
    have hmemF : s ∈ st.squeaks.filter (fun s2 =>
        content_matches_search text s2 && keyLt (sortKey s2) lastKey) :=
      List.mem_filter.mpr ⟨hsq, by simp [hmatch, hkey]⟩
    have hlen2 : ((st.squeaks.filter (fun s2 =>
        content_matches_search text s2 &&
          keyLt (sortKey s2) lastKey)).insertionSort pageDesc).length ≤ limit := by
      rw [List.length_insertionSort]
      exact hlen
    simp only [get_squeak_entries_for_text_search]
    rw [List.take_of_length_le hlen2]
    exact (List.mem_insertionSort pageDesc).mpr hmemF

/-- Witness for C7's amended theorem: searching "h" (code 104) finds the
squeak with content "Hi" (codes 72, 105). -/
theorem text_search_ci_substring_witness :
    (∀ c ∈ ([104] : Text), c ≠ 37 ∧ c ≠ 95) ∧
    searchSqueakRowHi.content = some [72, 105] ∧
    ((searchSqueakRowHi ∈ get_squeak_entries_for_text_search searchStoreHi
        [104] 1 (some ⟨10, 10, [9]⟩) →
      ∃ pre post, ([72, 105] : Text).map asciiLower =
        pre ++ (([104] : Text).map asciiLower ++ post)) ∧
     (searchSqueakRowHi ∈ searchStoreHi.squeaks →
      (∃ pre post, ([72, 105] : Text).map asciiLower =
        pre ++ (([104] : Text).map asciiLower ++ post)) →
      keyLt (sortKey searchSqueakRowHi) ⟨10, 10, [9]⟩ = true →
      (searchStoreHi.squeaks.filter (fun s2 =>
          content_matches_search [104] s2 &&
          keyLt (sortKey s2) ⟨10, 10, [9]⟩)).length ≤ 1 →
      searchSqueakRowHi ∈ get_squeak_entries_for_text_search searchStoreHi
        [104] 1 (some ⟨10, 10, [9]⟩))) :=
  ⟨by decide, by decide,
   text_search_ci_substring searchStoreHi [104] (by decide) 1 ⟨10, 10, [9]⟩
     searchSqueakRowHi [72, 105] (by decide)⟩

/-- **C7 counterexample.** The claim as stated fails for search text
containing a LIKE wildcard: searching "_" (code 95) returns the squeak
with content "x" (code 120), although "_" is not a substring of "x"
under case-insensitive comparison — ILIKE treats `_` as
match-any-single-character. -/
theorem text_search_wildcard_counterexample :
    searchSqueakRow ∈ get_squeak_entries_for_text_search searchStore [95] 1
        (some ⟨10, 10, [9]⟩) ∧
    ¬ ∃ pre post, (([120] : Text).map asciiLower) =
        pre ++ ((([95] : Text).map asciiLower) ++ post) := by
  constructor
  · decide
  · rintro ⟨pre, post, h⟩
    simp only [List.map, asciiLower] at h
    norm_num at h
    cases pre with
    | nil => simp at h
    | cons a pre' =>
      simp only [List.cons_append] at h
      injection h with h1 h2
      exact absurd h2.symm (by simp)

/-! ## C8: the recursive ancestor walk has no depth cap -/

theorem cteFrontier_selfReply :
    ∀ n, cteFrontier selfReplyStore.squeaks [7] n = [some [7]] := by
  intro n
  induction n with
  | zero => rfl
  | succ n ih =>
    show cteStep selfReplyStore.squeaks
      (cteFrontier selfReplyStore.squeaks [7] n) = [some [7]]
    rw [ih]
    rfl

/-- **C8 counterexample.** The recursive ancestor walk is not capped at
any depth (no `MAX_DEPTH` exists in the code): on a store whose single
squeak is recorded as replying to itself, the CTE frontier is still
nonempty after 1025 iterations, beyond the claimed cap of 1024. -/
theorem ancestor_walk_uncapped_counterexample :
    cteFrontier selfReplyStore.squeaks [7] 1025 ≠ [] := by
  rw [cteFrontier_selfReply 1025]
  simp

/-- **C8 (amended).** The recursive ancestor walk of
`get_thread_ancestor_squeak_entries` has no defensive depth cap: on a
pathological reply chain in stored data — a squeak recorded as replying
to itself — the walk's frontier contains that squeak's hash and is
nonempty at every depth `n`, so the recursive query does not terminate
on such data; it terminates only because stored reply chains are
acyclic in practice. -/
theorem ancestor_walk_no_depth_cap (squeaks : List SqueakRow)
    (s : SqueakRow) (hs : s ∈ squeaks)
    (hself : s.hashReplySqk = some s.hash) (n : Nat) :
    some s.hash ∈ cteFrontier squeaks s.hash n ∧
    cteFrontier squeaks s.hash n ≠ [] := by
  have hmem : ∀ m, some s.hash ∈ cteFrontier squeaks s.hash m := by
    intro m
    induction m with
    | zero =>
      show some s.hash ∈ (squeaks.filter
        (fun r => r.hash == s.hash)).map (fun r => some r.hash)
      exact List.mem_map.mpr ⟨s, List.mem_filter.mpr ⟨hs, by simp⟩, rfl⟩
    | succ m ih =>
      show some s.hash ∈ cteStep squeaks (cteFrontier squeaks s.hash m)
      rw [cteStep]
      refine List.mem_flatMap.mpr ⟨some s.hash, ih, ?_⟩
      exact List.mem_map.mpr ⟨s, List.mem_filter.mpr ⟨hs, by simp⟩, hself⟩
  refine ⟨hmem n, fun hemp => ?_⟩
  have := hmem n
  rw [hemp] at this
  exact absurd this (by simp)

/-- Witness for C8's amended theorem at the self-reply store and
depth 2000. -/
theorem ancestor_walk_no_depth_cap_witness :
    (selfReplySqueakRow ∈ selfReplyStore.squeaks ∧
     selfReplySqueakRow.hashReplySqk = some selfReplySqueakRow.hash) ∧
    (some selfReplySqueakRow.hash ∈
        cteFrontier selfReplyStore.squeaks selfReplySqueakRow.hash 2000 ∧
     cteFrontier selfReplyStore.squeaks selfReplySqueakRow.hash 2000 ≠ []) :=
  ⟨⟨by decide, by decide⟩,
   ancestor_walk_no_depth_cap selfReplyStore.squeaks selfReplySqueakRow
     (by decide) (by decide) 2000⟩

/-! ## C3: timeline keyset pagination -/

theorem pageDesc_isTotal : IsTotal SqueakRow pageDesc := by
  constructor
  intro a b
  by_cases h : keyLt (sortKey a) (sortKey b) = true
  · exact Or.inr (keyLt_asymm h)
  · exact Or.inl (eq_false_of_ne_true h)

theorem pageDesc_isTrans : IsTrans SqueakRow pageDesc := by
  constructor
  intro a b c h1 h2
  simp only [pageDesc] at h1 h2 ⊢
  cases hba : keyLt (sortKey b) (sortKey a) with
  | false =>
    have hkey := keyLt_connex h1 hba
    rw [hkey]
    exact h2
  | true =>
    cases hac : keyLt (sortKey a) (sortKey c) with
    | false => rfl
    | true =>
      have hbc := keyLt_trans hba hac
      rw [h2] at hbc
      exact absurd hbc (by simp)

/-- In a `Pairwise R` list, every element either is the last element or
is related to it. -/
theorem pairwise_rel_getLast {α : Type} {R : α → α → Prop} :
    ∀ (l : List α), l.Pairwise R → ∀ (h : l ≠ []) (x : α), x ∈ l →
      x = l.getLast h ∨ R x (l.getLast h) := by
  intro l
  induction l with
  | nil => intro _ h; exact absurd rfl h
  | cons a t ih =>
    intro hl h x hx
    cases t with
    | nil =>
      simp only [List.mem_singleton] at hx
      subst hx
      exact Or.inl rfl
    | cons b t2 =>
      have htne : (b :: t2) ≠ [] := by simp
      rw [List.pairwise_cons] at hl
      rw [List.getLast_cons htne]
      rcases List.mem_cons.mp hx with rfl | hx2
      · exact Or.inr (hl.1 _ (List.getLast_mem htne))
      · exact ih hl.2 htne x hx2

/-- Every timeline entry is a stored squeak of a following profile with
sort key strictly below the pagination key. -/
theorem timeline_mem (st : Store) (limit : Nat) (lastKey : SortKey) :
    ∀ s ∈ get_timeline_squeak_entries st limit (some lastKey),
      s ∈ st.squeaks ∧
      profile_is_following (profileFor st s.authorAddress) = true ∧
      keyLt (sortKey s) lastKey = true := by
  intro s hs
  have h1 := List.mem_of_mem_take hs
  rw [List.mem_insertionSort, List.mem_filter] at h1
  refine ⟨h1.1, ?_⟩
  have h2 := h1.2
  simp only [Bool.and_eq_true] at h2
  exact h2

/-- The timeline page is strictly decreasing in the sort key. -/
theorem timeline_pairwise (st : Store) (limit : Nat) (lastKey : SortKey)
    (hnd : (st.squeaks.map SqueakRow.hash).Nodup) :
    (get_timeline_squeak_entries st limit (some lastKey)).Pairwise
      (fun a b => keyLt (sortKey b) (sortKey a) = true) := by
  haveI := pageDesc_isTotal
  haveI := pageDesc_isTrans
  have hmap : st.squeaks.map SqueakRow.hash =
      (st.squeaks.map sortKey).map SortKey.hash := by
    rw [List.map_map]
    rfl
  rw [hmap] at hnd
  have hndk : (st.squeaks.map sortKey).Nodup := hnd.of_map _
  set F := st.squeaks.filter (fun s =>
    profile_is_following (profileFor st s.authorAddress) &&
    keyLt (sortKey s) lastKey) with hF
  have hFnd : (F.map sortKey).Nodup :=
    hndk.sublist ((List.filter_sublist st.squeaks).map sortKey)
  have hsortnd : ((F.insertionSort pageDesc).map sortKey).Nodup :=
    (((List.perm_insertionSort pageDesc F).map sortKey).nodup_iff).mpr hFnd
  have hpairne : (F.insertionSort pageDesc).Pairwise
      (fun a b => sortKey a ≠ sortKey b) := List.pairwise_map.mp hsortnd
  have hsorted : (F.insertionSort pageDesc).Pairwise pageDesc :=
    List.sorted_insertionSort pageDesc F
  have hstrict : (F.insertionSort pageDesc).Pairwise
      (fun a b => keyLt (sortKey b) (sortKey a) = true) := by
    refine (hsorted.and hpairne).imp ?_
    rintro a b ⟨hge, hne⟩
    cases hba : keyLt (sortKey b) (sortKey a)
    · exact absurd (keyLt_connex hge hba) hne
    · rfl
  exact hstrict.sublist (List.take_sublist limit _)

/-- **C3.** `get_timeline_squeak_entries` returns only squeaks of
following profiles with sort key strictly below the last entry's, sorted
in strictly decreasing `(block_height, squeak_time, hash)` order, at most
`limit` of them; and the page fetched from the last entry of a previous
page shares no entry with that page, so concatenating successive pages
yields every entry at most once. -/
theorem timeline_keyset_pagination (st : Store) (limit : Nat)
    (lastKey : SortKey) (hnd : (st.squeaks.map SqueakRow.hash).Nodup) :
    (∀ s ∈ get_timeline_squeak_entries st limit (some lastKey),
        profile_is_following (profileFor st s.authorAddress) = true ∧
        keyLt (sortKey s) lastKey = true) ∧
    (get_timeline_squeak_entries st limit (some lastKey)).Pairwise
        (fun a b => keyLt (sortKey b) (sortKey a) = true) ∧
    (get_timeline_squeak_entries st limit (some lastKey)).length ≤ limit ∧
    (∀ (h1 : get_timeline_squeak_entries st limit (some lastKey) ≠ []),
      ∀ s2 ∈ get_timeline_squeak_entries st limit
          (some (sortKey ((get_timeline_squeak_entries st limit
            (some lastKey)).getLast h1))),
        s2 ∉ get_timeline_squeak_entries st limit (some lastKey)) := by
  refine ⟨fun s hs => (timeline_mem st limit lastKey s hs).2,
    timeline_pairwise st limit lastKey hnd, ?_, ?_⟩
  · exact List.length_take_le limit _
  · intro h1 s2 hs2 hmem
    set m := (get_timeline_squeak_entries st limit (some lastKey)).getLast h1
      with hm
    have hlt : keyLt (sortKey s2) (sortKey m) = true :=
      (timeline_mem st limit (sortKey m) s2 hs2).2.2
    have hge : keyLt (sortKey s2) (sortKey m) = false := by
      rcases pairwise_rel_getLast _ (timeline_pairwise st limit lastKey hnd)
        h1 s2 hmem with heq | hrel
      · rw [heq, ← hm, keyLt_irrefl]
      · exact keyLt_asymm hrel
    rw [hlt] at hge
    exact absurd hge (by simp)

/-- Witness for C3 at a concrete two-squeak store with `limit = 1`: the
first page holds the height-2 squeak, the second page (keyed from it)
holds the height-1 squeak and avoids the first page. -/
theorem timeline_keyset_pagination_witness :
    (timelineStore.squeaks.map SqueakRow.hash).Nodup ∧
    ((∀ s ∈ get_timeline_squeak_entries timelineStore 1 (some ⟨10, 10, [9]⟩),
        profile_is_following (profileFor timelineStore s.authorAddress) = true ∧
        keyLt (sortKey s) ⟨10, 10, [9]⟩ = true) ∧
     (get_timeline_squeak_entries timelineStore 1 (some ⟨10, 10, [9]⟩)).Pairwise
        (fun a b => keyLt (sortKey b) (sortKey a) = true) ∧
     (get_timeline_squeak_entries timelineStore 1 (some ⟨10, 10, [9]⟩)).length ≤ 1 ∧
     (∀ (h1 : get_timeline_squeak_entries timelineStore 1 (some ⟨10, 10, [9]⟩) ≠ []),
       ∀ s2 ∈ get_timeline_squeak_entries timelineStore 1
           (some (sortKey ((get_timeline_squeak_entries timelineStore 1
             (some ⟨10, 10, [9]⟩)).getLast h1))),
         s2 ∉ get_timeline_squeak_entries timelineStore 1 (some ⟨10, 10, [9]⟩))) :=
  ⟨by decide, timeline_keyset_pagination timelineStore 1 ⟨10, 10, [9]⟩ (by decide)⟩

/-! ## C4: retention sweep selection -/

/-- **C4 (amended).** The retention sweep selects exactly the squeaks
with `created_time_ms + I·1000 < now` (strictly, matching the code's
`now > created + I·1000`) that are not liked and whose author profile is
not locally owned; a squeak whose author profile holds a private key is
never selected, regardless of age. -/
theorem get_old_squeaks_to_delete_exact (st : Store) (nowMs intervalS : Nat)
    (hnd : (st.squeaks.map SqueakRow.hash).Nodup) (s : SqueakRow)
    (hs : s ∈ st.squeaks) :
    (s.hash ∈ get_old_squeaks_to_delete st nowMs intervalS ↔
      (s.createdTimeMs + intervalS * 1000 < nowMs ∧
       profile_has_no_private_key (profileFor st s.authorAddress) = true ∧
       s.likedTimeMs = none)) ∧
    (profile_has_no_private_key (profileFor st s.authorAddress) = false →
      s.hash ∉ get_old_squeaks_to_delete st nowMs intervalS) := by
  have hiff : s.hash ∈ get_old_squeaks_to_delete st nowMs intervalS ↔
      (s.createdTimeMs + intervalS * 1000 < nowMs ∧
       profile_has_no_private_key (profileFor st s.authorAddress) = true ∧
       s.likedTimeMs = none) := by
    constructor
    · intro hmem
      simp only [get_old_squeaks_to_delete, List.mem_map] at hmem
      obtain ⟨s', hs', hh⟩ := hmem
      rw [List.mem_filter] at hs'
      obtain ⟨hs'mem, hpred⟩ := hs'
      have heq : s' = s := List.inj_on_of_nodup_map hnd hs'mem hs hh
      subst heq
      simp only [Bool.and_eq_true, squeak_is_older_than_retention,
        decide_eq_true_eq, squeak_is_not_liked,
        Option.isNone_iff_eq_none] at hpred
      exact ⟨hpred.1.1, hpred.1.2, hpred.2⟩
    · rintro ⟨h1, h2, h3⟩
      simp only [get_old_squeaks_to_delete, List.mem_map]
      refine ⟨s, List.mem_filter.mpr ⟨hs, ?_⟩, rfl⟩
      simp [squeak_is_older_than_retention, h1, h2, squeak_is_not_liked, h3]
  refine ⟨hiff, ?_⟩
  intro hfalse hmem
  have := (hiff.mp hmem).2.1
  rw [hfalse] at this
  exact absurd this (by simp)

/-- Witness for C4's amended theorem at a concrete store: a squeak
created at ms 0 is selected at now = 2000 ms with a 1 s interval. -/
theorem get_old_squeaks_to_delete_exact_witness :
    ((retentionStore.squeaks.map SqueakRow.hash).Nodup ∧
     oldSqueakRow ∈ retentionStore.squeaks) ∧
    ((oldSqueakRow.hash ∈ get_old_squeaks_to_delete retentionStore 2000 1 ↔
       (oldSqueakRow.createdTimeMs + 1 * 1000 < 2000 ∧
        profile_has_no_private_key
          (profileFor retentionStore oldSqueakRow.authorAddress) = true ∧
        oldSqueakRow.likedTimeMs = none)) ∧
     (profile_has_no_private_key
        (profileFor retentionStore oldSqueakRow.authorAddress) = false →
      oldSqueakRow.hash ∉ get_old_squeaks_to_delete retentionStore 2000 1)) :=
  ⟨⟨by decide, by decide⟩,
   get_old_squeaks_to_delete_exact retentionStore 2000 1 (by decide)
     oldSqueakRow (by decide)⟩

/-- **C4 counterexample.** At the exact boundary `created_time_ms +
I·1000 = now` the spec's predicate (with `≤`) calls the squeak eligible,
but the code's strict `>` does not select it: with `created_time_ms = 0`,
`I = 1` and `now = 1000` ms the sweep selects nothing. -/
theorem retention_boundary_counterexample :
    retention_eligible_spec retentionStore 1000 1 oldSqueakRow = true ∧
    oldSqueakRow ∈ retentionStore.squeaks ∧
    get_old_squeaks_to_delete retentionStore 1000 1 = [] := by decide

/-! ## C5: received-offer expiry -/

/-- **C5.** `get_received_offers` silently drops every received offer for
which `now ≥ invoice_timestamp + invoice_expiry` (time in seconds; the
comparison is stated scaled by 1000 with `now` in ms), and
`delete_expired_received_offers` deletes exactly the received offers
satisfying that condition, leaving unexpired offers in place. -/
theorem received_offer_expiry (st : Store) (nowMs : Nat) (sqh : Bytes)
    (o : ReceivedOfferRow) (ho : o ∈ st.receivedOffers) :
    (1000 * (o.invoiceTimestamp + o.invoiceExpiry) ≤ nowMs →
      o ∉ get_received_offers st nowMs sqh) ∧
    (o ∈ (delete_expired_received_offers st nowMs).1.receivedOffers ↔
      nowMs < 1000 * (o.invoiceTimestamp + o.invoiceExpiry)) := by
  constructor
  · intro hexp hmem
    rw [get_received_offers, List.mem_filter] at hmem
    have h2 := hmem.2
    simp only [Bool.and_eq_true, received_offer_is_not_expired,
      decide_eq_true_eq] at h2
    omega
  · simp only [delete_expired_received_offers, List.mem_filter, ho,
      true_and, received_offer_should_be_deleted, Bool.not_eq_true',
      decide_eq_false_iff_not]
    omega

/-- Witness for C5 at a concrete store: an offer expiring at second 2 is
dropped and deleted at now = 5000 ms. -/
theorem received_offer_expiry_witness :
    expiredOfferRow ∈ offerStore.receivedOffers ∧
    ((1000 * (expiredOfferRow.invoiceTimestamp + expiredOfferRow.invoiceExpiry)
        ≤ 5000 →
      expiredOfferRow ∉ get_received_offers offerStore 5000 [5]) ∧
     (expiredOfferRow ∈
        (delete_expired_received_offers offerStore 5000).1.receivedOffers ↔
      5000 < 1000 * (expiredOfferRow.invoiceTimestamp +
        expiredOfferRow.invoiceExpiry))) :=
  ⟨by decide, received_offer_expiry offerStore 5000 [5] expiredOfferRow
    (by decide)⟩

/-! ## C6: sent-offer grace period -/

/-- **C6.** The sent-offer sweep deletes a sent offer exactly when
`now ≥ invoice_timestamp + invoice_expiry + g` (seconds, stated scaled by
1000 with `now` in ms): an offer already expired but still within the
grace interval `g` is retained, and one past expiry plus grace is
deleted. -/
theorem sent_offer_grace_period (st : Store) (nowMs g : Nat)
    (o : SentOfferRow) (ho : o ∈ st.sentOffers) :
    (o ∈ (delete_expired_sent_offers st nowMs g).1.sentOffers ↔
      nowMs < 1000 * (o.invoiceTimestamp + o.invoiceExpiry + g)) ∧
    (1000 * (o.invoiceTimestamp + o.invoiceExpiry) ≤ nowMs →
      nowMs < 1000 * (o.invoiceTimestamp + o.invoiceExpiry + g) →
      o ∈ (delete_expired_sent_offers st nowMs g).1.sentOffers) ∧
    (1000 * (o.invoiceTimestamp + o.invoiceExpiry + g) ≤ nowMs →
      o ∉ (delete_expired_sent_offers st nowMs g).1.sentOffers) := by
  have hiff : o ∈ (delete_expired_sent_offers st nowMs g).1.sentOffers ↔
      nowMs < 1000 * (o.invoiceTimestamp + o.invoiceExpiry + g) := by
    simp only [delete_expired_sent_offers, List.mem_filter, ho, true_and,
      sent_offer_should_be_deleted, Bool.not_eq_true',
      decide_eq_false_iff_not]
    omega
  refine ⟨hiff, fun _ hin => hiff.mpr hin, fun hout hmem => ?_⟩
  have := hiff.mp hmem
  omega

/-- Witness for C6 at a concrete store: a sent offer expiring at second
10 with grace 5 s is retained at now = 12000 ms. -/
theorem sent_offer_grace_period_witness :
    sampleSentOfferRow ∈ sentOfferStore.sentOffers ∧
    ((sampleSentOfferRow ∈
        (delete_expired_sent_offers sentOfferStore 12000 5).1.sentOffers ↔
      12000 < 1000 * (sampleSentOfferRow.invoiceTimestamp +
        sampleSentOfferRow.invoiceExpiry + 5)) ∧
     (1000 * (sampleSentOfferRow.invoiceTimestamp +
        sampleSentOfferRow.invoiceExpiry) ≤ 12000 →
      12000 < 1000 * (sampleSentOfferRow.invoiceTimestamp +
        sampleSentOfferRow.invoiceExpiry + 5) →
      sampleSentOfferRow ∈
        (delete_expired_sent_offers sentOfferStore 12000 5).1.sentOffers) ∧
     (1000 * (sampleSentOfferRow.invoiceTimestamp +
        sampleSentOfferRow.invoiceExpiry + 5) ≤ 12000 →
      sampleSentOfferRow ∉
        (delete_expired_sent_offers sentOfferStore 12000 5).1.sentOffers)) :=
  ⟨by decide, sent_offer_grace_period sentOfferStore 12000 5
    sampleSentOfferRow (by decide)⟩

/-! ## C10: lookup_squeaks treats 0 as unbounded -/

/-- **C10.** `lookup_squeaks` applies no block-height bound on a side
whose argument is 0: a squeak at any height satisfying the remaining
filters is returned both when `min_block = 0` and when `max_block = 0`. -/
theorem lookup_squeaks_zero_unbounded (st : Store) (addresses : List Text)
    (minB maxB : Nat) (rh : Bytes) (il : Bool) (s : SqueakRow)
    (hs : s ∈ st.squeaks)
    (haddr : (addresses.isEmpty || addresses.contains s.authorAddress) = true)
    (hreply : (rh.isEmpty || s.hashReplySqk == some rh) = true)
    (hlock : (il || s.secretKey.isSome) = true) :
    ((maxB == 0 || decide (s.nBlockHeight ≤ maxB)) = true →
      s.hash ∈ lookup_squeaks st addresses 0 maxB rh il) ∧
    ((minB == 0 || decide (minB ≤ s.nBlockHeight)) = true →
      s.hash ∈ lookup_squeaks st addresses minB 0 rh il) := by
  constructor
  · intro hmax
    rw [lookup_squeaks]
    refine List.mem_map.mpr ⟨s, ?_, rfl⟩
    rw [List.mem_insertionSort]
    refine List.mem_filter.mpr ⟨hs, ?_⟩
    simp only [haddr, hreply, hlock, hmax]
    simp
  · intro hmin
    rw [lookup_squeaks]
    refine List.mem_map.mpr ⟨s, ?_, rfl⟩
    rw [List.mem_insertionSort]
    refine List.mem_filter.mpr ⟨hs, ?_⟩
    simp only [haddr, hreply, hlock, hmin]
    simp

/-- Witness for C10: an unlocked squeak at height 5 is returned by a
lookup with `min_block = 0` and by one with `max_block = 0`. -/
theorem lookup_squeaks_zero_unbounded_witness :
    (unlockedSqueakRow ∈ lookupStore.squeaks ∧
     (([] : List Text).isEmpty ||
        ([] : List Text).contains unlockedSqueakRow.authorAddress) = true ∧
     (([] : Bytes).isEmpty ||
        unlockedSqueakRow.hashReplySqk == some ([] : Bytes)) = true ∧
     (false || unlockedSqueakRow.secretKey.isSome) = true) ∧
    ((((7 : Nat) == 0 || decide (unlockedSqueakRow.nBlockHeight ≤ 7)) = true →
      unlockedSqueakRow.hash ∈ lookup_squeaks lookupStore [] 0 7 [] false) ∧
     (((2 : Nat) == 0 || decide (2 ≤ unlockedSqueakRow.nBlockHeight)) = true →
      unlockedSqueakRow.hash ∈ lookup_squeaks lookupStore [] 2 0 [] false)) :=
  ⟨⟨by decide, by decide, by decide, by decide⟩,
   lookup_squeaks_zero_unbounded lookupStore [] 2 7 [] false unlockedSqueakRow
     (by decide) (by decide) (by decide) (by decide)⟩

end Squeaknode
